import Mathlib

/-!
Verification of the checkers rules engine in `game.py`.

The `Board` class of the source keeps an 8×8 grid `board[r][c]` whose
entries are either `None` or a pair `(color, king_bool)` with
`color ∈ {PLAYER = 1, BOT = 2}`.  We embed the grid as a total function
`Fin 8 → Fin 8 → Option Piece`; all public operations take `Int`
coordinates and go through the same bounds check `in_bounds` as the
source, so out-of-bounds reads yield `none` and out-of-bounds writes are
no-ops, exactly as in the Python code.  The source's `clone` produces an
independent deep copy that is then mutated; with the immutable functional
representation a chain of `set`/`remove` applications plays that role.

The recursive capture-chain search `_recursive_captures` is embedded as
`recursiveCapturesF` with an explicit fuel argument (structural recursion
on the fuel); `Board.recursive_captures` instantiates the fuel at 64,
which is always sufficient because every cell of the scanned 8×8 grid can
hold at most one piece, and each recursive call removes one opponent
piece.  The fuel-independence theorem for C9 makes this precise.
-/

-- Game constants (game.py lines 34-51)
def ROWS : Nat := 8
def COLS : Nat := 8
def PLAYER : Nat := 1
def BOT : Nat := 2

abbrev Piece := Nat × Bool

-- A move is (to_r, to_c, captured_list), as in `legal_moves_for`.
abbrev Move := Int × Int × List (Int × Int)

-- `in_bounds(r, c)` (game.py line 63).
def in_bounds (r c : Int) : Prop := (0 ≤ r ∧ r < 8) ∧ (0 ≤ c ∧ c < 8)

instance in_bounds_dec (r c : Int) : Decidable (in_bounds r c) := by
  unfold in_bounds
  exact inferInstance

-- `opponent(color)` (game.py line 67).
def opponent (color : Nat) : Nat := if color = PLAYER then BOT else PLAYER

-- The 8×8 grid of `board[r][c]` entries.
structure Board where
  cells : Fin 8 → Fin 8 → Option Piece

-- Conversion of an in-range `Int` coordinate to a grid index.
def idx? (n : Int) : Option (Fin 8) :=
  if h : 0 ≤ n ∧ n < 8 then some ⟨n.toNat, by omega⟩ else none

-- `Board.get` (game.py line 88): permissive out-of-bounds read.
def Board.get (b : Board) (r c : Int) : Option Piece :=
  match idx? r, idx? c with
  | some i, some j => b.cells i j
  | _, _ => none

-- `Board.set` (game.py line 91): silent no-op out of bounds.
def Board.set (b : Board) (r c : Int) (v : Option Piece) : Board :=
  match idx? r, idx? c with
  | some i, some j => ⟨fun x y => if x = i ∧ y = j then v else b.cells x y⟩
  | _, _ => b

-- `Board.remove` (game.py line 95): assigns `None`, i.e. `set` with `none`.
def Board.remove (b : Board) (r c : Int) : Board := b.set r c none

-- Removal of a list of captured cells (the `for (cr, cc) in caplist` loops).
def removeList (b : Board) (l : List (Int × Int)) : Board :=
  l.foldl (fun bb rc => bb.remove rc.1 rc.2) b

-- `Board.setup` (game.py lines 78-86) builds the classic starting position.
def initialBoard : Board :=
  ⟨fun i j =>
    if ((i : Nat) + (j : Nat)) % 2 = 1 then
      if (i : Nat) < 3 then some (BOT, false)
      else if 4 < (i : Nat) then some (PLAYER, false)
      else none
    else none⟩

-- `Board.pieces` (game.py lines 104-111): row-major scan of the grid.
def Board.pieces (b : Board) (color : Nat) : List (Int × Int × Bool) :=
  (List.range 8).flatMap fun (r : Nat) =>
    (List.range 8).filterMap fun (c : Nat) =>
      match b.get (r : Int) (c : Int) with
      | some p => if p.1 = color then some ((r : Int), (c : Int), p.2) else none
      | none => none

-- The direction list built at game.py lines 119-123 and 167-171.
def directionsFor (color : Nat) (king : Bool) : List (Int × Int) :=
  (if king = true ∨ color = PLAYER then [((-1 : Int), (-1 : Int)), (-1, 1)] else []) ++
  (if king = true ∨ color = BOT then [((1 : Int), (-1 : Int)), (1, 1)] else [])

-- One direction of the simple-move scan in `legal_moves_for` (lines 127-132).
def simpleCheck (b : Board) (r c : Int) (d : Int × Int) : Option Move :=
  let nr := r + d.1
  let nc := c + d.2
  if in_bounds nr nc then
    match b.get nr nc with
    | none => some (nr, nc, [])
    | some _ => none
  else none

-- One direction of the capture scan in `legal_moves_for` (lines 133-138).
def immCheck (b : Board) (r c : Int) (color : Nat) (d : Int × Int) : Option Move :=
  let nr := r + d.1
  let nc := c + d.2
  if in_bounds nr nc then
    match b.get nr nc with
    | none => none
    | some q =>
      if q.1 = opponent color then
        let jr := nr + d.1
        let jc := nc + d.2
        if in_bounds jr jc ∧ b.get jr jc = none then some (jr, jc, [(nr, nc)])
        else none
      else none
  else none

-- One direction of the capture scan in `_recursive_captures` (lines 174-179).
def capCheck (b : Board) (r c : Int) (color : Nat) (d : Int × Int) : Option Move :=
  let nr := r + d.1
  let nc := c + d.2
  let jr := nr + d.1
  let jc := nc + d.2
  if in_bounds nr nc ∧ in_bounds jr jc then
    match b.get nr nc with
    | some q => if q.1 = opponent color ∧ b.get jr jc = none then some (jr, jc, [(nr, nc)]) else none
    | none => none
  else none

-- The `captures` list accumulated by `_recursive_captures` (lines 173-179).
def captureScan (b : Board) (r c : Int) (color : Nat) (king : Bool) : List Move :=
  (directionsFor color king).filterMap (capCheck b r c color)

-- `Board._recursive_captures` (game.py lines 162-194), with explicit fuel.
-- Each recursive call is made on a clone from which one opponent piece has
-- been removed, so any fuel at least the opponent's piece count is enough;
-- the base case `fuel = 0` is never reached with the fuel used below.
def recursiveCapturesF : Nat → Board → Int → Int → List Move
  | 0, _, _, _ => []
  | (fuel + 1), b, r, c =>
    match b.get r c with
    | none => []
    | some (color, king) =>
      (captureScan b r c color king).flatMap fun m =>
        let clone := removeList ((b.set m.1 m.2.1 (b.get r c)).remove r c) m.2.2
        let more := recursiveCapturesF fuel clone m.1 m.2.1
        if more = [] then [m]
        else more.map fun e => (e.1, e.2.1, m.2.2 ++ e.2.2)

def Board.recursive_captures (b : Board) (r c : Int) : List Move :=
  recursiveCapturesF 64 b r c

-- The `moves` list of `legal_moves_for` (game.py lines 125-132).
def Board.simple_moves_for (b : Board) (r c : Int) : List Move :=
  match b.get r c with
  | none => []
  | some (color, king) => (directionsFor color king).filterMap (simpleCheck b r c)

-- The `captures` list of `legal_moves_for` (game.py lines 126-138).
def Board.immediate_captures_for (b : Board) (r c : Int) : List Move :=
  match b.get r c with
  | none => []
  | some (color, king) => (directionsFor color king).filterMap (immCheck b r c color)

-- The `full_captures` list of `legal_moves_for` (game.py lines 140-155).
def Board.full_captures_for (b : Board) (r c : Int) : List Move :=
  (b.immediate_captures_for r c).flatMap fun m =>
    let clone := removeList ((b.set m.1 m.2.1 (b.get r c)).remove r c) m.2.2
    let more := clone.recursive_captures m.1 m.2.1
    if more = [] then [m]
    else more.map fun e => (e.1, e.2.1, m.2.2 ++ e.2.2)

-- `Board.legal_moves_for` (game.py lines 113-160): captures are mandatory.
def Board.legal_moves_for (b : Board) (r c : Int) : List Move :=
  if b.full_captures_for r c ≠ [] then b.full_captures_for r c
  else b.simple_moves_for r c

-- `Board.apply_move` (game.py lines 196-205).  When the source cell is
-- empty the Python code raises a `TypeError` at `p[0]` after the board
-- mutations; the `none` branch returns the board state at that point.
def Board.apply_move (b : Board) (r c to_r to_c : Int) (captured : List (Int × Int)) : Board :=
  let p := b.get r c
  let b2 := removeList ((b.set to_r to_c p).remove r c) captured
  match p with
  | some (color, _) =>
    if (color = PLAYER ∧ to_r = 0) ∨ (color = BOT ∧ to_r = 7) then
      b2.set to_r to_c (some (color, true))
    else b2
  | none => b2

-- `Board.any_capture_available` (game.py lines 207-213).
def Board.any_capture_available (b : Board) (color : Nat) : Bool :=
  (b.pieces color).any fun x =>
    (b.legal_moves_for x.1 x.2.1).any fun m => !m.2.2.isEmpty

-- `Board.game_over` (game.py lines 215-227).
def Board.game_over (b : Board) : Bool × String :=
  let p_count := (b.pieces PLAYER).length
  let b_count := (b.pieces BOT).length
  if p_count = 0 then (true, "Bot wins")
  else if b_count = 0 then (true, "Player wins")
  else if (b.pieces PLAYER).all (fun x => (b.legal_moves_for x.1 x.2.1).isEmpty) then
    (true, "Bot wins (no moves for player)")
  else if (b.pieces BOT).all (fun x => (b.legal_moves_for x.1 x.2.1).isEmpty) then
    (true, "Player wins (no moves for bot)")
  else (false, "")

-- Boards reachable from the initial layout by legal moves (for C4): each
-- applied move is a member of `legal_moves_for` of its source cell.
inductive Reachable : Board → Prop
  | init : Reachable initialBoard
  | step (b : Board) (r c : Int) (m : Move) (hb : Reachable b)
      (hm : m ∈ b.legal_moves_for r c) :
      Reachable (b.apply_move r c m.1 m.2.1 m.2.2)

-- Occupied cells sit on dark squares only (spec section 3 invariant).
def darkOnly (b : Board) : Prop :=
  ∀ r c : Int, b.get r c ≠ none → (r + c) % 2 = 1

-- One step of replaying a capture chain: jumping from (r, c) over the
-- captured cell (cr, cc) lands on (2*cr - r, 2*cc - c); the piece is
-- moved to the landing cell and the source and captured cells cleared,
-- exactly as on the clones built in `_recursive_captures`.
def chainStep (s : Board × Int × Int) (cap : Int × Int) : Board × Int × Int :=
  let jr := 2 * cap.1 - s.2.1
  let jc := 2 * cap.2 - s.2.2
  (removeList ((s.1.set jr jc (s.1.get s.2.1 s.2.2)).remove s.2.1 s.2.2) [cap], jr, jc)

-- Replaying a whole capture chain from its captured-cell list.
def chainExec (b : Board) (r c : Int) (caps : List (Int × Int)) : Board × Int × Int :=
  caps.foldl chainStep (b, r, c)

-- An empty board, used to build small test positions.
def emptyBoard : Board := ⟨fun _ _ => none⟩

-- Whether a cell value is a piece of the given color.
def matchB (o : Option Piece) (col : Nat) : Bool :=
  match o with
  | some p => p.1 == col
  | none => false

-- Number of cells of the scanned 8×8 grid holding a piece of the color.
def colorCount (b : Board) (col : Nat) : Nat :=
  ((List.range 8).map fun (r : Nat) =>
    (List.range 8).countP fun (c : Nat) => matchB (b.get (r : Int) (c : Int)) col).sum

-- Modelled from the spec (section 4.2, note 6, for C3): a capture-chain
-- search whose direction set at EVERY level is computed from the color and
-- king flag fixed at the start of the whole move, and which writes the
-- original, never-promoted (color, king) pair onto each clone.
def chainSearchF (color : Nat) (king : Bool) : Nat → Board → Int → Int → List Move
  | 0, _, _, _ => []
  | (fuel + 1), b, r, c =>
    (captureScan b r c color king).flatMap fun m =>
      let clone := removeList ((b.set m.1 m.2.1 (some (color, king))).remove r c) m.2.2
      let more := chainSearchF color king fuel clone m.1 m.2.1
      if more = [] then [m]
      else more.map fun e => (e.1, e.2.1, m.2.2 ++ e.2.2)

-- Test positions used by the witness theorems.
def bSingleCapture : Board :=
  (emptyBoard.set 5 0 (some (PLAYER, false))).set 4 1 (some (BOT, false))

def bTwoPieces : Board :=
  ((emptyBoard.set 5 0 (some (PLAYER, false))).set 5 4 (some (PLAYER, false))).set 4 5
    (some (BOT, false))

def bKingAt12 : Board := emptyBoard.set 1 2 (some (PLAYER, true))

def bStuckBoth : Board :=
  (emptyBoard.set 0 1 (some (PLAYER, false))).set 7 0 (some (BOT, false))

def bBotStuck : Board :=
  (emptyBoard.set 7 0 (some (BOT, false))).set 3 3 (some (PLAYER, false))

def bBotOnly : Board := emptyBoard.set 7 0 (some (BOT, false))

def bPlayerOnly : Board := emptyBoard.set 0 1 (some (PLAYER, false))

/-! ### Cell-level lemmas for `get`, `set`, `remove`, `removeList` -/

theorem idx?_bounds {n : Int} {i : Fin 8} (h : idx? n = some i) :
    0 ≤ n ∧ n < 8 ∧ n = (i : Nat) := by
  unfold idx? at h
  split_ifs at h with hb
  simp only [Option.some.injEq] at h
  subst h
  simp only [Fin.val_mk]
  omega

theorem idx?_of_mem {n : Int} (h : 0 ≤ n ∧ n < 8) :
    idx? n = some ⟨n.toNat, by omega⟩ := by
  unfold idx?
  rw [dif_pos h]

theorem idx?_eq_none {n : Int} (h : ¬(0 ≤ n ∧ n < 8)) : idx? n = none := by
  unfold idx?
  rw [dif_neg h]

theorem get_oob {b : Board} {r c : Int} (h : ¬ in_bounds r c) : b.get r c = none := by
  unfold in_bounds at h
  unfold Board.get
  rcases h1 : idx? r with _ | i
  · rfl
  · rcases h2 : idx? c with _ | j
    · rfl
    · exact absurd ⟨⟨(idx?_bounds h1).1, (idx?_bounds h1).2.1⟩,
        (idx?_bounds h2).1, (idx?_bounds h2).2.1⟩ h

theorem in_bounds_of_get {b : Board} {r c : Int} {q : Piece}
    (h : b.get r c = some q) : in_bounds r c := by
  by_contra hc
  rw [get_oob hc] at h
  exact Option.noConfusion h

theorem get_cells {b : Board} {r c : Int} {i j : Fin 8}
    (hi : idx? r = some i) (hj : idx? c = some j) : b.get r c = b.cells i j := by
  unfold Board.get
  rw [hi, hj]

theorem set_oob {b : Board} {r c : Int} {v : Option Piece}
    (h : ¬ in_bounds r c) : b.set r c v = b := by
  unfold in_bounds at h
  unfold Board.set
  rcases h1 : idx? r with _ | i
  · rfl
  · rcases h2 : idx? c with _ | j
    · rfl
    · exact absurd ⟨⟨(idx?_bounds h1).1, (idx?_bounds h1).2.1⟩,
        (idx?_bounds h2).1, (idx?_bounds h2).2.1⟩ h

theorem get_set_self {b : Board} {r c : Int} {v : Option Piece}
    (h : in_bounds r c) : (b.set r c v).get r c = v := by
  obtain ⟨⟨h1, h2⟩, h3, h4⟩ := h
  have hi := idx?_of_mem ⟨h1, h2⟩
  have hj := idx?_of_mem ⟨h3, h4⟩
  unfold Board.set
  rw [hi, hj]
  rw [get_cells hi hj]
  simp

theorem get_set_other {b : Board} {r c x y : Int} {v : Option Piece}
    (h : ¬(x = r ∧ y = c)) : (b.set r c v).get x y = b.get x y := by
  unfold Board.set
  rcases h1 : idx? r with _ | i
  · rfl
  · rcases h2 : idx? c with _ | j
    · rfl
    · rcases h3 : idx? x with _ | i'
      · rw [Board.get, Board.get, h3]
      · rcases h4 : idx? y with _ | j'
        · rw [Board.get, Board.get, h3, h4]
        · rw [get_cells h3 h4, get_cells h3 h4]
          simp only []
          rw [if_neg]
          rintro ⟨rfl, rfl⟩
          have e1 := (idx?_bounds h1).2.2
          have e2 := (idx?_bounds h2).2.2
          have e3 := (idx?_bounds h3).2.2
          have e4 := (idx?_bounds h4).2.2
          exact h ⟨by omega, by omega⟩

theorem get_remove_self (b : Board) (r c : Int) : (b.remove r c).get r c = none := by
  by_cases h : in_bounds r c
  · exact get_set_self h
  · rw [Board.remove, set_oob h]
    exact get_oob h

theorem get_remove_other {b : Board} {r c x y : Int}
    (h : ¬(x = r ∧ y = c)) : (b.remove r c).get x y = b.get x y :=
  get_set_other h

theorem removeList_cons (b : Board) (p : Int × Int) (l : List (Int × Int)) :
    removeList b (p :: l) = removeList (b.remove p.1 p.2) l := rfl

theorem removeList_get_or (l : List (Int × Int)) (b : Board) (x y : Int) :
    (removeList b l).get x y = b.get x y ∨ (removeList b l).get x y = none := by
  induction l generalizing b with
  | nil => exact Or.inl rfl
  | cons p t ih =>
    rw [removeList_cons]
    rcases ih (b.remove p.1 p.2) with h | h
    · by_cases hp : x = p.1 ∧ y = p.2
      · right
        rw [h, hp.1, hp.2]
        exact get_remove_self b p.1 p.2
      · left
        rw [h, get_remove_other hp]
    · exact Or.inr h

theorem removeList_get_some {l : List (Int × Int)} {b : Board} {x y : Int} {q : Piece}
    (h : (removeList b l).get x y = some q) : b.get x y = some q := by
  rcases removeList_get_or l b x y with h' | h'
  · rw [← h', h]
  · rw [h'] at h
    exact Option.noConfusion h

theorem removeList_get_not_mem {l : List (Int × Int)} {b : Board} {x y : Int}
    (h : ∀ p ∈ l, ¬(x = p.1 ∧ y = p.2)) : (removeList b l).get x y = b.get x y := by
  induction l generalizing b with
  | nil => rfl
  | cons p t ih =>
    rw [removeList_cons]
    rw [ih fun p' hp' => h p' (List.mem_cons_of_mem _ hp')]
    exact get_remove_other (h p (List.mem_cons_self _ _))

/-! ### Direction and scan characterizations -/

theorem mem_directionsFor {color : Nat} {king : Bool} {d : Int × Int}
    (h : d ∈ directionsFor color king) :
    (d.1 = -1 ∨ d.1 = 1) ∧ (d.2 = -1 ∨ d.2 = 1) := by
  unfold directionsFor at h
  rcases List.mem_append.1 h with h' | h' <;> split_ifs at h' <;>
    simp only [List.mem_cons, List.not_mem_nil, or_false] at h' <;>
    rcases h' with rfl | rfl <;> simp

theorem simpleCheck_eq_some {b : Board} {r c : Int} {d : Int × Int} {m : Move} :
    simpleCheck b r c d = some m ↔
      in_bounds (r + d.1) (c + d.2) ∧ b.get (r + d.1) (c + d.2) = none ∧
        m = (r + d.1, c + d.2, []) := by
  unfold simpleCheck
  dsimp only
  split_ifs with hb
  · cases hg : b.get (r + d.1) (c + d.2) with
    | none => simp [hb, hg, eq_comm]
    | some q => simp [hb, hg]
  · simp [hb]

theorem immCheck_eq_some {b : Board} {r c : Int} {color : Nat} {d : Int × Int} {m : Move} :
    immCheck b r c color d = some m ↔
      in_bounds (r + d.1) (c + d.2) ∧
      ∃ q : Piece, b.get (r + d.1) (c + d.2) = some q ∧ q.1 = opponent color ∧
        in_bounds (r + d.1 + d.1) (c + d.2 + d.2) ∧
        b.get (r + d.1 + d.1) (c + d.2 + d.2) = none ∧
        m = (r + d.1 + d.1, c + d.2 + d.2, [(r + d.1, c + d.2)]) := by
  unfold immCheck
  dsimp only
  by_cases hb : in_bounds (r + d.1) (c + d.2)
  · rw [if_pos hb]
    cases hg : b.get (r + d.1) (c + d.2) with
    | none =>
      constructor
      · intro h
        exact Option.noConfusion h
      · rintro ⟨_, q', hg', _⟩
        exact Option.noConfusion hg'
    | some q =>
      dsimp only
      by_cases hq : q.1 = opponent color
      · rw [if_pos hq]
        by_cases hj : in_bounds (r + d.1 + d.1) (c + d.2 + d.2) ∧
            b.get (r + d.1 + d.1) (c + d.2 + d.2) = none
        · rw [if_pos hj]
          constructor
          · intro h
            exact ⟨hb, q, rfl, hq, hj.1, hj.2, (Option.some.inj h).symm⟩
          · rintro ⟨_, q', hg', _, _, _, rfl⟩
            rfl
        · rw [if_neg hj]
          constructor
          · intro h
            exact Option.noConfusion h
          · rintro ⟨_, q', hg', hq1, hjb, hjn, _⟩
            exact absurd ⟨hjb, hjn⟩ hj
      · rw [if_neg hq]
        constructor
        · intro h
          exact Option.noConfusion h
        · rintro ⟨_, q', hg', hq1, _⟩
          cases Option.some.inj hg'
          exact absurd hq1 hq
  · rw [if_neg hb]
    constructor
    · intro h
      exact Option.noConfusion h
    · rintro ⟨hb', _⟩
      exact absurd hb' hb

theorem capCheck_eq_some {b : Board} {r c : Int} {color : Nat} {d : Int × Int} {m : Move} :
    capCheck b r c color d = some m ↔
      in_bounds (r + d.1) (c + d.2) ∧ in_bounds (r + d.1 + d.1) (c + d.2 + d.2) ∧
      ∃ q : Piece, b.get (r + d.1) (c + d.2) = some q ∧ q.1 = opponent color ∧
        b.get (r + d.1 + d.1) (c + d.2 + d.2) = none ∧
        m = (r + d.1 + d.1, c + d.2 + d.2, [(r + d.1, c + d.2)]) := by
  unfold capCheck
  dsimp only
  by_cases hb : in_bounds (r + d.1) (c + d.2) ∧ in_bounds (r + d.1 + d.1) (c + d.2 + d.2)
  · rw [if_pos hb]
    cases hg : b.get (r + d.1) (c + d.2) with
    | none =>
      constructor
      · intro h
        exact Option.noConfusion h
      · rintro ⟨_, _, q', hg', _⟩
        exact Option.noConfusion hg'
    | some q =>
      dsimp only
      by_cases hq : q.1 = opponent color ∧ b.get (r + d.1 + d.1) (c + d.2 + d.2) = none
      · rw [if_pos hq]
        constructor
        · intro h
          exact ⟨hb.1, hb.2, q, rfl, hq.1, hq.2, (Option.some.inj h).symm⟩
        · rintro ⟨_, _, q', hg', _, _, rfl⟩
          rfl
      · rw [if_neg hq]
        constructor
        · intro h
          exact Option.noConfusion h
        · rintro ⟨_, _, q', hg', hq1, hjn, _⟩
          cases Option.some.inj hg'
          exact absurd ⟨hq1, hjn⟩ hq
  · rw [if_neg hb]
    constructor
    · intro h
      exact Option.noConfusion h
    · rintro ⟨h1, h2, _⟩
      exact absurd ⟨h1, h2⟩ hb

/-! ### Membership eliminations and clone facts -/

theorem mem_captureScan_elim {b : Board} {r c : Int} {color : Nat} {king : Bool} {m : Move}
    (h : m ∈ captureScan b r c color king) :
    ∃ d ∈ directionsFor color king, ∃ q : Piece,
      in_bounds (r + d.1) (c + d.2) ∧ in_bounds (r + d.1 + d.1) (c + d.2 + d.2) ∧
      b.get (r + d.1) (c + d.2) = some q ∧ q.1 = opponent color ∧
      b.get (r + d.1 + d.1) (c + d.2 + d.2) = none ∧
      m = (r + d.1 + d.1, c + d.2 + d.2, [(r + d.1, c + d.2)]) := by
  obtain ⟨d, hd, hc⟩ := List.mem_filterMap.1 h
  obtain ⟨h1, h2, q, h3, h4, h5, h6⟩ := capCheck_eq_some.1 hc
  exact ⟨d, hd, q, h1, h2, h3, h4, h5, h6⟩

theorem mem_immediate_elim {b : Board} {r c : Int} {color : Nat} {king : Bool} {m : Move}
    (hp : b.get r c = some (color, king)) (h : m ∈ b.immediate_captures_for r c) :
    ∃ d ∈ directionsFor color king, ∃ q : Piece,
      in_bounds (r + d.1) (c + d.2) ∧ in_bounds (r + d.1 + d.1) (c + d.2 + d.2) ∧
      b.get (r + d.1) (c + d.2) = some q ∧ q.1 = opponent color ∧
      b.get (r + d.1 + d.1) (c + d.2 + d.2) = none ∧
      m = (r + d.1 + d.1, c + d.2 + d.2, [(r + d.1, c + d.2)]) := by
  unfold Board.immediate_captures_for at h
  rw [hp] at h
  obtain ⟨d, hd, hc⟩ := List.mem_filterMap.1 h
  obtain ⟨h1, q, h2, h3, h4, h5, h6⟩ := immCheck_eq_some.1 hc
  exact ⟨d, hd, q, h1, h4, h2, h3, h5, h6⟩

theorem mem_simple_elim {b : Board} {r c : Int} {color : Nat} {king : Bool} {m : Move}
    (hp : b.get r c = some (color, king)) (h : m ∈ b.simple_moves_for r c) :
    ∃ d ∈ directionsFor color king,
      in_bounds (r + d.1) (c + d.2) ∧ b.get (r + d.1) (c + d.2) = none ∧
      m = (r + d.1, c + d.2, []) := by
  unfold Board.simple_moves_for at h
  rw [hp] at h
  obtain ⟨d, hd, hc⟩ := List.mem_filterMap.1 h
  obtain ⟨h1, h2, h3⟩ := simpleCheck_eq_some.1 hc
  exact ⟨d, hd, h1, h2, h3⟩

theorem simple_moves_none {b : Board} {r c : Int} (hg : b.get r c = none) :
    b.simple_moves_for r c = [] := by
  unfold Board.simple_moves_for
  rw [hg]

theorem immediate_captures_none {b : Board} {r c : Int} (hg : b.get r c = none) :
    b.immediate_captures_for r c = [] := by
  unfold Board.immediate_captures_for
  rw [hg]

theorem full_captures_none {b : Board} {r c : Int} (hg : b.get r c = none) :
    b.full_captures_for r c = [] := by
  unfold Board.full_captures_for
  rw [immediate_captures_none hg]
  rfl

theorem legal_moves_src {b : Board} {r c : Int} {m : Move}
    (h : m ∈ b.legal_moves_for r c) : ∃ p : Piece, b.get r c = some p := by
  cases hg : b.get r c with
  | some p => exact ⟨p, rfl⟩
  | none =>
    unfold Board.legal_moves_for at h
    rw [full_captures_none hg, simple_moves_none hg] at h
    simp at h

-- The piece written by the clone construction is still at the landing cell
-- after the source cell and the captured cells have been cleared.
theorem clone_get_landing {b : Board} {r c jr jc : Int} {v : Option Piece}
    {caps : List (Int × Int)} (hjb : in_bounds jr jc) (hne : ¬(jr = r ∧ jc = c))
    (hcaps : ∀ x ∈ caps, ¬(jr = x.1 ∧ jc = x.2)) :
    (removeList ((b.set jr jc v).remove r c) caps).get jr jc = v := by
  rw [removeList_get_not_mem hcaps, get_remove_other hne, get_set_self hjb]

-- Destinations returned by the recursive capture search are in bounds and
-- preserve the color (parity) of the starting square.
theorem recF_dest : ∀ (fuel : Nat) (b : Board) (r c : Int) (m : Move),
    m ∈ recursiveCapturesF fuel b r c →
    in_bounds m.1 m.2.1 ∧ (m.1 + m.2.1) % 2 = (r + c) % 2 := by
  intro fuel
  induction fuel with
  | zero =>
    intro b r c m h
    simp [recursiveCapturesF] at h
  | succ fuel ih =>
    intro b r c m h
    simp only [recursiveCapturesF] at h
    cases hg : b.get r c with
    | none =>
      rw [hg] at h
      exact absurd h (List.not_mem_nil m)
    | some p =>
      obtain ⟨color, king⟩ := p
      rw [hg] at h
      replace h : m ∈ (captureScan b r c color king).flatMap fun mm =>
          if recursiveCapturesF fuel
              (removeList ((b.set mm.1 mm.2.1 (some (color, king))).remove r c) mm.2.2)
              mm.1 mm.2.1 = [] then [mm]
          else (recursiveCapturesF fuel
              (removeList ((b.set mm.1 mm.2.1 (some (color, king))).remove r c) mm.2.2)
              mm.1 mm.2.1).map fun e => (e.1, e.2.1, mm.2.2 ++ e.2.2) := h
      obtain ⟨a, ha, hm⟩ := List.mem_flatMap.1 h
      obtain ⟨d, hd, q, hb1, hb2, hq1, hq2, hq3, rfl⟩ := mem_captureScan_elim ha
      dsimp only at hm
      split at hm
      · rw [List.mem_singleton] at hm
        subst hm
        refine ⟨hb2, ?_⟩
        dsimp only
        omega
      · obtain ⟨e, he, hme⟩ := List.mem_map.1 hm
        obtain ⟨hbe, hpe⟩ := ih _ _ _ _ he
        subst hme
        refine ⟨hbe, ?_⟩
        dsimp only at hpe ⊢
        omega

/-! ### Counting opponent pieces -/

theorem countP_split_succ {l : List Nat} {p q : Nat → Bool} (x : Nat)
    (hx : x ∈ l) (hnd : l.Nodup) (hother : ∀ y ∈ l, y ≠ x → p y = q y)
    (hpx : p x = true) (hqx : q x = false) : l.countP p = l.countP q + 1 := by
  induction l with
  | nil => simp at hx
  | cons a t ih =>
    rcases List.mem_cons.1 hx with rfl | hx'
    · rw [List.countP_cons_of_pos _ _ hpx, List.countP_cons_of_neg _ _ (by simp [hqx])]
      have hpq : ∀ y ∈ t, p y = q y := fun y hy =>
        hother y (List.mem_cons_of_mem _ hy) fun he => (List.nodup_cons.1 hnd).1 (he ▸ hy)
      rw [List.countP_congr fun y hy => by rw [hpq y hy]]
    · have hax : a ≠ x := fun he => (List.nodup_cons.1 hnd).1 (he ▸ hx')
      have hpa := hother a (List.mem_cons_self a t) hax
      rw [List.countP_cons, List.countP_cons, hpa,
        ih hx' (List.nodup_cons.1 hnd).2
          fun y hy hne => hother y (List.mem_cons_of_mem _ hy) hne]
      omega

theorem sum_map_split_succ {l : List Nat} {f g : Nat → Nat} (x : Nat)
    (hx : x ∈ l) (hnd : l.Nodup) (hother : ∀ y ∈ l, y ≠ x → f y = g y)
    (hfx : f x = g x + 1) : (l.map f).sum = (l.map g).sum + 1 := by
  induction l with
  | nil => simp at hx
  | cons a t ih =>
    rcases List.mem_cons.1 hx with rfl | hx'
    · have hfg : ∀ y ∈ t, f y = g y := fun y hy =>
        hother y (List.mem_cons_of_mem _ hy) fun he => (List.nodup_cons.1 hnd).1 (he ▸ hy)
      rw [List.map_cons, List.map_cons, List.sum_cons, List.sum_cons, hfx,
        List.map_congr_left hfg]
      omega
    · have hax : a ≠ x := fun he => (List.nodup_cons.1 hnd).1 (he ▸ hx')
      rw [List.map_cons, List.map_cons, List.sum_cons, List.sum_cons,
        hother a (List.mem_cons_self a t) hax,
        ih hx' (List.nodup_cons.1 hnd).2
          fun y hy hne => hother y (List.mem_cons_of_mem _ hy) hne]
      omega

theorem sum_map_le {l : List Nat} {f : Nat → Nat} {k : Nat}
    (h : ∀ x ∈ l, f x ≤ k) : (l.map f).sum ≤ l.length * k := by
  induction l with
  | nil => simp
  | cons a t ih =>
    rw [List.map_cons, List.sum_cons, List.length_cons]
    have := h a (List.mem_cons_self a t)
    have := ih fun y hy => h y (List.mem_cons_of_mem _ hy)
    calc f a + (t.map f).sum ≤ k + t.length * k := by omega
    _ = (t.length + 1) * k := by ring

theorem colorCount_le_64 (b : Board) (col : Nat) : colorCount b col ≤ 64 := by
  unfold colorCount
  have h : ∀ x ∈ List.range 8,
      ((List.range 8).countP fun (c : Nat) => matchB (b.get (x : Int) (c : Int)) col) ≤ 8 := by
    intro x _
    calc ((List.range 8).countP fun (c : Nat) => matchB (b.get (x : Int) (c : Int)) col)
        ≤ (List.range 8).length := List.countP_le_length _
    _ = 8 := List.length_range 8
  calc ((List.range 8).map fun (r : Nat) =>
        (List.range 8).countP fun (c : Nat) => matchB (b.get (r : Int) (c : Int)) col).sum
      ≤ (List.range 8).length * 8 := sum_map_le h
  _ = 64 := by simp

theorem colorCount_set_same {b : Board} {r c : Int} {v : Option Piece} {col : Nat}
    (h : matchB (b.get r c) col = matchB v col) :
    colorCount (b.set r c v) col = colorCount b col := by
  by_cases hb : in_bounds r c
  · unfold colorCount
    refine congrArg List.sum (List.map_congr_left fun rr hrr => ?_)
    refine List.countP_congr fun cc hcc => ?_
    by_cases hrc : (rr : Int) = r ∧ (cc : Int) = c
    · rw [hrc.1, hrc.2, get_set_self hb, ← h]
    · rw [get_set_other hrc]
  · rw [set_oob hb]

theorem colorCount_remove_match {b : Board} {r c : Int} {q : Piece} {col : Nat}
    (hget : b.get r c = some q) (hq : q.1 = col) :
    colorCount b col = colorCount (b.remove r c) col + 1 := by
  have hb : in_bounds r c := in_bounds_of_get hget
  obtain ⟨⟨h1, h2⟩, h3, h4⟩ := hb
  have hrc : ((r.toNat : Nat) : Int) = r := Int.toNat_of_nonneg h1
  have hcc : ((c.toNat : Nat) : Int) = c := Int.toNat_of_nonneg h3
  unfold colorCount
  refine sum_map_split_succ r.toNat (List.mem_range.2 (by omega))
    (List.nodup_range 8) (fun y _ hy => ?_) ?_
  · refine List.countP_congr fun cc _ => ?_
    rw [get_remove_other fun hc => hy (by omega)]
  · refine countP_split_succ c.toNat (List.mem_range.2 (by omega))
      (List.nodup_range 8) (fun y _ hy => ?_) ?_ ?_
    · rw [get_remove_other fun hc => hy (by omega)]
    · rw [hrc, hcc, hget]
      simp [matchB, hq]
    · rw [hrc, hcc, get_remove_self]
      rfl

theorem colorCount_pos {b : Board} {r c : Int} {q : Piece} {col : Nat}
    (hget : b.get r c = some q) (hq : q.1 = col) : 0 < colorCount b col := by
  rw [colorCount_remove_match hget hq]
  omega

theorem length_filterMap_countP {α β : Type} (f : α → Option β) (l : List α) :
    (l.filterMap f).length = l.countP fun a => (f a).isSome := by
  induction l with
  | nil => rfl
  | cons a t ih =>
    rw [List.filterMap_cons, List.countP_cons]
    cases hfa : f a with
    | none => simp [hfa, ih]
    | some v => simp [hfa, ih]

-- The length of the `pieces` list of the source equals the cell count.
theorem pieces_length (b : Board) (col : Nat) :
    (b.pieces col).length = colorCount b col := by
  unfold Board.pieces colorCount
  rw [List.length_flatMap]
  refine congrArg List.sum (List.map_congr_left fun rr _ => ?_)
  show (List.filterMap _ (List.range 8)).length = _
  rw [length_filterMap_countP]
  refine List.countP_congr fun cc _ => ?_
  cases hg : b.get (rr : Int) (cc : Int) with
  | none => simp [hg, matchB]
  | some p =>
    by_cases hp : p.1 = col
    · simp [hg, hp, matchB]
    · simp [hg, hp, matchB]

theorem opponent_ne (color : Nat) : ¬ color = opponent color := by
  unfold opponent PLAYER BOT
  by_cases h : color = 1 <;> simp [h]

-- The clone built for one jump has exactly one opponent piece fewer.
theorem colorCount_clone {b : Board} {r c nr nc jr jc : Int} {color : Nat} {king : Bool}
    {q : Piece} (hp : b.get r c = some (color, king)) (hn : b.get nr nc = some q)
    (hq : q.1 = opponent color) (hj : b.get jr jc = none)
    (hne1 : ¬(r = jr ∧ c = jc)) (hne2 : ¬(nr = jr ∧ nc = jc)) (hne3 : ¬(nr = r ∧ nc = c)) :
    colorCount (removeList ((b.set jr jc (some (color, king))).remove r c) [(nr, nc)])
        (opponent color) + 1
      = colorCount b (opponent color) := by
  have e1 : colorCount (b.set jr jc (some (color, king))) (opponent color)
      = colorCount b (opponent color) := by
    refine colorCount_set_same ?_
    rw [hj]
    show false = ((color == opponent color) : Bool)
    have := opponent_ne color
    simp [this]
  have e2 : colorCount ((b.set jr jc (some (color, king))).remove r c) (opponent color)
      = colorCount (b.set jr jc (some (color, king))) (opponent color) := by
    refine colorCount_set_same ?_
    rw [get_set_other hne1, hp]
    show ((color == opponent color) : Bool) = false
    have := opponent_ne color
    simp [this]
  have hget2 : ((b.set jr jc (some (color, king))).remove r c).get nr nc = some q := by
    rw [get_remove_other hne3, get_set_other hne2, hn]
  have e3 := colorCount_remove_match hget2 hq
  have e4 : removeList ((b.set jr jc (some (color, king))).remove r c) [(nr, nc)]
      = ((b.set jr jc (some (color, king))).remove r c).remove nr nc := rfl
  rw [e4]
  omega

theorem captureScan_eq_nil {b : Board} {r c : Int} {color : Nat} {king : Bool}
    (h : colorCount b (opponent color) = 0) : captureScan b r c color king = [] := by
  rw [List.eq_nil_iff_forall_not_mem]
  intro m hm
  obtain ⟨d, hd, q, _, _, hq1, hq2, _⟩ := mem_captureScan_elim hm
  have := colorCount_pos hq1 hq2
  omega

/-! ### Fuel stabilization for the capture-chain recursion -/

theorem recF_zero (b : Board) (r c : Int) : recursiveCapturesF 0 b r c = [] := rfl

theorem recF_succ_none {fuel : Nat} {b : Board} {r c : Int} (hg : b.get r c = none) :
    recursiveCapturesF (fuel + 1) b r c = [] := by
  simp only [recursiveCapturesF]
  rw [hg]

theorem recF_succ_some (fuel : Nat) {b : Board} {r c : Int} {color : Nat} {king : Bool}
    (hg : b.get r c = some (color, king)) :
    recursiveCapturesF (fuel + 1) b r c = (captureScan b r c color king).flatMap fun mm =>
      if recursiveCapturesF fuel
          (removeList ((b.set mm.1 mm.2.1 (some (color, king))).remove r c) mm.2.2)
          mm.1 mm.2.1 = [] then [mm]
      else (recursiveCapturesF fuel
          (removeList ((b.set mm.1 mm.2.1 (some (color, king))).remove r c) mm.2.2)
          mm.1 mm.2.1).map fun e => (e.1, e.2.1, mm.2.2 ++ e.2.2) := by
  simp only [recursiveCapturesF]
  rw [hg]

theorem flatMap_congr_mem {α β : Type} {l : List α} {f g : α → List β}
    (h : ∀ a ∈ l, f a = g a) : l.flatMap f = l.flatMap g := by
  induction l with
  | nil => rfl
  | cons a t ih =>
    rw [List.flatMap_cons, List.flatMap_cons, h a (List.mem_cons_self a t),
      ih fun x hx => h x (List.mem_cons_of_mem _ hx)]

-- On each clone built for a jump, the moved piece sits on the landing cell
-- with the same color and king flag, and one opponent piece is gone.
theorem clone_facts {b : Board} {r c : Int} {color : Nat} {king : Bool} {mm : Move}
    (hp : b.get r c = some (color, king)) (hmm : mm ∈ captureScan b r c color king) :
    (removeList ((b.set mm.1 mm.2.1 (some (color, king))).remove r c) mm.2.2).get mm.1 mm.2.1
        = some (color, king) ∧
    colorCount (removeList ((b.set mm.1 mm.2.1 (some (color, king))).remove r c) mm.2.2)
        (opponent color) + 1 = colorCount b (opponent color) := by
  obtain ⟨d, hd, q, hb1, hb2, hq1, hq2, hq3, hmq⟩ := mem_captureScan_elim hmm
  obtain ⟨hd1, hd2⟩ := mem_directionsFor hd
  subst hmq
  dsimp only
  constructor
  · refine clone_get_landing hb2 ?_ ?_
    · rintro ⟨h1, h2⟩
      rcases hd1 with h | h <;> omega
    · intro x hx
      rw [List.mem_singleton] at hx
      subst hx
      dsimp only
      rintro ⟨h1, h2⟩
      rcases hd1 with h | h <;> omega
  · refine colorCount_clone hp hq1 hq2 hq3 ?_ ?_ ?_
    · rintro ⟨h1, h2⟩
      rcases hd1 with h | h <;> omega
    · rintro ⟨h1, h2⟩
      rcases hd1 with h | h <;> omega
    · rintro ⟨h1, h2⟩
      rcases hd1 with h | h <;> omega

theorem recF_stab1 : ∀ (n : Nat) (b : Board) (r c : Int) (color : Nat) (king : Bool),
    b.get r c = some (color, king) → colorCount b (opponent color) ≤ n →
    recursiveCapturesF (n + 1) b r c = recursiveCapturesF n b r c := by
  intro n
  induction n with
  | zero =>
    intro b r c color king hg hc
    rw [recF_succ_some 0 hg, captureScan_eq_nil (Nat.le_zero.1 hc), recF_zero]
    rfl
  | succ n ih =>
    intro b r c color king hg hc
    rw [recF_succ_some (n + 1) hg, recF_succ_some n hg]
    refine flatMap_congr_mem fun mm hmm => ?_
    obtain ⟨hcg, hcc⟩ := clone_facts hg hmm
    rw [ih _ mm.1 mm.2.1 color king hcg (by omega)]

theorem recF_stab_ge : ∀ (k n : Nat) (b : Board) (r c : Int) (color : Nat) (king : Bool),
    b.get r c = some (color, king) → colorCount b (opponent color) ≤ n →
    recursiveCapturesF (n + k) b r c = recursiveCapturesF n b r c := by
  intro k
  induction k with
  | zero =>
    intro n b r c color king hg hc
    rfl
  | succ k ih =>
    intro n b r c color king hg hc
    have he : n + (k + 1) = (n + k) + 1 := by omega
    rw [he, recF_stab1 (n + k) b r c color king hg (by omega),
      ih n b r c color king hg hc]

theorem recF_stab_any (m n : Nat) {b : Board} {r c : Int} {color : Nat} {king : Bool}
    (hg : b.get r c = some (color, king)) (hm : colorCount b (opponent color) ≤ m)
    (hn : colorCount b (opponent color) ≤ n) :
    recursiveCapturesF m b r c = recursiveCapturesF n b r c := by
  obtain ⟨k1, hk1⟩ := Nat.exists_eq_add_of_le hm
  obtain ⟨k2, hk2⟩ := Nat.exists_eq_add_of_le hn
  rw [hk1, hk2, recF_stab_ge k1 _ b r c color king hg le_rfl,
    recF_stab_ge k2 _ b r c color king hg le_rfl]

/-! ### Replaying capture chains -/

theorem chainExec_nil (b : Board) (r c : Int) : chainExec b r c [] = (b, r, c) := rfl

theorem chainExec_cons (b : Board) (r c : Int) (cap : Int × Int) (caps : List (Int × Int)) :
    chainExec b r c (cap :: caps)
      = chainExec (chainStep (b, r, c) cap).1 (chainStep (b, r, c) cap).2.1
          (chainStep (b, r, c) cap).2.2 caps := rfl

-- One replay step coincides with the clone built for that jump.
theorem chainStep_eq {b : Board} {r c : Int} {color : Nat} {king : Bool} {d : Int × Int}
    (hp : b.get r c = some (color, king)) :
    chainStep (b, r, c) (r + d.1, c + d.2)
      = (removeList ((b.set (r + d.1 + d.1) (c + d.2 + d.2) (some (color, king))).remove r c)
          [(r + d.1, c + d.2)], r + d.1 + d.1, c + d.2 + d.2) := by
  unfold chainStep
  dsimp only
  rw [hp]
  have e1 : 2 * (r + d.1) - r = r + d.1 + d.1 := by ring
  have e2 : 2 * (c + d.2) - c = c + d.2 + d.2 := by ring
  rw [e1, e2]

-- Core maximality invariant of `_recursive_captures`: replaying a returned
-- chain lands on the returned destination, and no further capture exists.
theorem recC2 : ∀ (fuel : Nat) (b : Board) (r c : Int) (color : Nat) (king : Bool) (m : Move),
    b.get r c = some (color, king) → colorCount b (opponent color) ≤ fuel →
    m ∈ recursiveCapturesF fuel b r c →
    (chainExec b r c m.2.2).2.1 = m.1 ∧ (chainExec b r c m.2.2).2.2 = m.2.1 ∧
    Board.recursive_captures (chainExec b r c m.2.2).1 m.1 m.2.1 = [] := by
  intro fuel
  induction fuel with
  | zero =>
    intro b r c color king m hg hc h
    rw [recF_zero] at h
    exact absurd h (List.not_mem_nil m)
  | succ fuel ih =>
    intro b r c color king m hg hc h
    rw [recF_succ_some fuel hg] at h
    obtain ⟨mm, hmm, hmem⟩ := List.mem_flatMap.1 h
    obtain ⟨hcg, hcc⟩ := clone_facts hg hmm
    obtain ⟨d, hd, q, hb1, hb2, hq1, hq2, hq3, hmq⟩ := mem_captureScan_elim hmm
    subst hmq
    dsimp only at hmem hcg hcc ⊢
    split at hmem
    case isTrue hnil =>
      rw [List.mem_singleton] at hmem
      subst hmem
      dsimp only
      rw [chainExec_cons, chainStep_eq hg]
      dsimp only
      rw [chainExec_nil]
      refine ⟨rfl, rfl, ?_⟩
      rw [Board.recursive_captures,
        recF_stab_any 64 fuel hcg (colorCount_le_64 _ _) (by omega), hnil]
    case isFalse hnil =>
      obtain ⟨e, he, hge⟩ := List.mem_map.1 hmem
      subst hge
      dsimp only
      rw [List.singleton_append, chainExec_cons, chainStep_eq hg]
      dsimp only
      have hcount : colorCount
          (removeList ((b.set (r + d.1 + d.1) (c + d.2 + d.2) (some (color, king))).remove r c)
            [(r + d.1, c + d.2)]) (opponent color) ≤ fuel := by omega
      obtain ⟨ih1, ih2, ih3⟩ := ih _ _ _ color king e hcg hcount he
      exact ⟨ih1, ih2, ih3⟩

/-! ### Structure of `full_captures_for` and `legal_moves_for` -/

-- The two capture scans of the source (lines 133-138 and 174-179) test the
-- same conditions, only in a different order.
theorem immCheck_eq_capCheck (b : Board) (r c : Int) (color : Nat) (d : Int × Int) :
    immCheck b r c color d = capCheck b r c color d := by
  cases hcap : capCheck b r c color d with
  | some m =>
    obtain ⟨h1, h2, q, h3, h4, h5, h6⟩ := capCheck_eq_some.1 hcap
    exact immCheck_eq_some.2 ⟨h1, q, h3, h4, h2, h5, h6⟩
  | none =>
    cases himm : immCheck b r c color d with
    | none => rfl
    | some m =>
      obtain ⟨h1, q, h2, h3, h4, h5, h6⟩ := immCheck_eq_some.1 himm
      rw [capCheck_eq_some.2 ⟨h1, h4, q, h2, h3, h5, h6⟩] at hcap
      exact Option.noConfusion hcap

theorem immediate_eq_captureScan {b : Board} {r c : Int} {color : Nat} {king : Bool}
    (hg : b.get r c = some (color, king)) :
    b.immediate_captures_for r c = captureScan b r c color king := by
  unfold Board.immediate_captures_for captureScan
  rw [hg]
  show List.filterMap (immCheck b r c color) (directionsFor color king)
      = List.filterMap (capCheck b r c color) (directionsFor color king)
  rw [funext (immCheck_eq_capCheck b r c color)]

theorem full_captures_eq {b : Board} {r c : Int} {color : Nat} {king : Bool}
    (hg : b.get r c = some (color, king)) :
    b.full_captures_for r c = (b.immediate_captures_for r c).flatMap fun mm =>
      if Board.recursive_captures
          (removeList ((b.set mm.1 mm.2.1 (some (color, king))).remove r c) mm.2.2)
          mm.1 mm.2.1 = [] then [mm]
      else (Board.recursive_captures
          (removeList ((b.set mm.1 mm.2.1 (some (color, king))).remove r c) mm.2.2)
          mm.1 mm.2.1).map fun e => (e.1, e.2.1, mm.2.2 ++ e.2.2) := by
  unfold Board.full_captures_for
  simp only [hg]

-- With a piece on the source cell, the `full_captures` list of
-- `legal_moves_for` is exactly one unfolding of `_recursive_captures`.
theorem full_captures_eq_recF65 {b : Board} {r c : Int} {color : Nat} {king : Bool}
    (hg : b.get r c = some (color, king)) :
    b.full_captures_for r c = recursiveCapturesF 65 b r c := by
  rw [full_captures_eq hg, immediate_eq_captureScan hg]
  have h65 : recursiveCapturesF 65 b r c = recursiveCapturesF (64 + 1) b r c := rfl
  rw [h65, recF_succ_some 64 hg]
  rfl

theorem recF_caps_ne_nil {fuel : Nat} {b : Board} {r c : Int} {m : Move}
    (h : m ∈ recursiveCapturesF fuel b r c) : m.2.2 ≠ [] := by
  cases fuel with
  | zero =>
    rw [recF_zero] at h
    exact absurd h (List.not_mem_nil m)
  | succ fuel =>
    cases hg : b.get r c with
    | none =>
      rw [recF_succ_none hg] at h
      exact absurd h (List.not_mem_nil m)
    | some p =>
      obtain ⟨color, king⟩ := p
      rw [recF_succ_some fuel hg] at h
      obtain ⟨mm, hmm, hmem⟩ := List.mem_flatMap.1 h
      obtain ⟨d, hd, q, hb1, hb2, hq1, hq2, hq3, hmq⟩ := mem_captureScan_elim hmm
      subst hmq
      dsimp only at hmem
      split at hmem
      · rw [List.mem_singleton] at hmem
        subst hmem
        simp
      · obtain ⟨e, he, hge⟩ := List.mem_map.1 hmem
        subst hge
        simp

theorem full_eq_nil_iff {b : Board} {r c : Int} {color : Nat} {king : Bool}
    (hg : b.get r c = some (color, king)) :
    b.full_captures_for r c = [] ↔ b.immediate_captures_for r c = [] := by
  rw [full_captures_eq hg]
  constructor
  · intro h
    rw [List.flatMap_eq_nil_iff] at h
    rw [List.eq_nil_iff_forall_not_mem]
    intro mm hmm
    have himg := h mm hmm
    split at himg
    · exact List.noConfusion himg
    case isFalse hnil => exact hnil (List.map_eq_nil_iff.1 himg)
  · intro h
    rw [h]
    rfl

theorem legal_eq_full {b : Board} {r c : Int} (h : b.full_captures_for r c ≠ []) :
    b.legal_moves_for r c = b.full_captures_for r c := by
  rw [Board.legal_moves_for, if_pos h]

theorem legal_eq_simple {b : Board} {r c : Int} (h : b.full_captures_for r c = []) :
    b.legal_moves_for r c = b.simple_moves_for r c := by
  rw [Board.legal_moves_for, if_neg (by simpa using h)]

-- Every legal move lands in bounds and on a square of the same color.
theorem mem_legal_dest {b : Board} {r c : Int} {m : Move}
    (h : m ∈ b.legal_moves_for r c) :
    in_bounds m.1 m.2.1 ∧ (m.1 + m.2.1) % 2 = (r + c) % 2 := by
  obtain ⟨p, hp⟩ := legal_moves_src h
  obtain ⟨color, king⟩ := p
  unfold Board.legal_moves_for at h
  split at h
  · rw [full_captures_eq_recF65 hp] at h
    exact recF_dest 65 b r c m h
  · obtain ⟨d, hd, hb1, hb2, hm⟩ := mem_simple_elim hp h
    obtain ⟨hd1, hd2⟩ := mem_directionsFor hd
    subst hm
    dsimp only
    refine ⟨hb1, ?_⟩
    rcases hd1 with h1 | h1 <;> rcases hd2 with h2 | h2 <;> omega

/-! ### `apply_move` and the dark-square invariant -/

theorem apply_move_eq {b : Board} {r c to_r to_c : Int} {captured : List (Int × Int)}
    {color : Nat} {king : Bool} (hp : b.get r c = some (color, king)) :
    b.apply_move r c to_r to_c captured =
      if (color = PLAYER ∧ to_r = 0) ∨ (color = BOT ∧ to_r = 7) then
        (removeList ((b.set to_r to_c (some (color, king))).remove r c) captured).set
          to_r to_c (some (color, true))
      else removeList ((b.set to_r to_c (some (color, king))).remove r c) captured := by
  unfold Board.apply_move
  simp only [hp]

theorem darkOnly_initial : darkOnly initialBoard := by
  intro x y hxy
  by_cases hb : in_bounds x y
  · obtain ⟨⟨h1, h2⟩, h3, h4⟩ := hb
    have hi := idx?_of_mem ⟨h1, h2⟩
    have hj := idx?_of_mem ⟨h3, h4⟩
    rw [get_cells hi hj] at hxy
    unfold initialBoard at hxy
    dsimp only at hxy
    by_cases hpar : (x.toNat + y.toNat) % 2 = 1
    · omega
    · rw [if_neg hpar] at hxy
      exact absurd rfl hxy
  · rw [get_oob hb] at hxy
    exact absurd rfl hxy

theorem darkOnly_apply {b : Board} {r c : Int} {m : Move} (hb : darkOnly b)
    (hm : m ∈ b.legal_moves_for r c) : darkOnly (b.apply_move r c m.1 m.2.1 m.2.2) := by
  obtain ⟨p, hp⟩ := legal_moves_src hm
  obtain ⟨color, king⟩ := p
  obtain ⟨hdb, hdpar⟩ := mem_legal_dest hm
  have hsrc : (r + c) % 2 = 1 := hb r c (by rw [hp]; exact fun h => Option.noConfusion h)
  have hdest : (m.1 + m.2.1) % 2 = 1 := by omega
  have chase : ∀ x y : Int, ¬(x = m.1 ∧ y = m.2.1) →
      (removeList ((b.set m.1 m.2.1 (some (color, king))).remove r c) m.2.2).get x y ≠ none →
      (x + y) % 2 = 1 := by
    intro x y hne hxy
    rcases removeList_get_or m.2.2 ((b.set m.1 m.2.1 (some (color, king))).remove r c) x y
      with h0 | h0
    · rw [h0] at hxy
      by_cases hrc : x = r ∧ y = c
      · rw [hrc.1, hrc.2, get_remove_self] at hxy
        exact absurd rfl hxy
      · rw [get_remove_other hrc, get_set_other hne] at hxy
        exact hb x y hxy
    · rw [h0] at hxy
      exact absurd rfl hxy
  intro x y hxy
  rw [apply_move_eq hp] at hxy
  split at hxy
  · by_cases hxe : x = m.1 ∧ y = m.2.1
    · rw [hxe.1, hxe.2]
      exact hdest
    · rw [get_set_other hxe] at hxy
      exact chase x y hxe hxy
  · by_cases hxe : x = m.1 ∧ y = m.2.1
    · rw [hxe.1, hxe.2]
      exact hdest
    · exact chase x y hxe hxy

/-! ### Claim theorems -/

/-- Claim C1: if the move generation for a cell finds at least one capture
(the `captures` list of `legal_moves_for` is nonempty), then
`legal_moves_for` returns exactly the expanded capture chains and every
returned move has a nonempty captured-cell list; if no capture exists from
that cell, the simple moves are returned and all have empty captured lists. -/
theorem legal_moves_capture_mandatory : ∀ (b : Board) (r c : Int),
    (b.immediate_captures_for r c ≠ [] →
      b.legal_moves_for r c = b.full_captures_for r c ∧
      ∀ m ∈ b.legal_moves_for r c, m.2.2 ≠ []) ∧
    (b.immediate_captures_for r c = [] →
      b.legal_moves_for r c = b.simple_moves_for r c ∧
      ∀ m ∈ b.legal_moves_for r c, m.2.2 = []) := by
  intro b r c
  cases hg : b.get r c with
  | none =>
    constructor
    · intro hne
      exact absurd (immediate_captures_none hg) hne
    · intro _
      refine ⟨legal_eq_simple (full_captures_none hg), ?_⟩
      intro m hm
      rw [legal_eq_simple (full_captures_none hg), simple_moves_none hg] at hm
      exact absurd hm (List.not_mem_nil m)
  | some p =>
    obtain ⟨color, king⟩ := p
    constructor
    · intro hne
      have hfull : b.full_captures_for r c ≠ [] := fun h => hne ((full_eq_nil_iff hg).1 h)
      refine ⟨legal_eq_full hfull, ?_⟩
      intro m hm
      rw [legal_eq_full hfull, full_captures_eq_recF65 hg] at hm
      exact recF_caps_ne_nil hm
    · intro hnil
      have hfull : b.full_captures_for r c = [] := (full_eq_nil_iff hg).2 hnil
      refine ⟨legal_eq_simple hfull, ?_⟩
      intro m hm
      rw [legal_eq_simple hfull] at hm
      obtain ⟨d, hd, _, _, hmeq⟩ := mem_simple_elim hg hm
      rw [hmeq]

theorem legal_moves_capture_mandatory_witness :
    (bSingleCapture.immediate_captures_for 5 0 ≠ [] ∧
      bSingleCapture.legal_moves_for 5 0 = bSingleCapture.full_captures_for 5 0 ∧
      ∀ m ∈ bSingleCapture.legal_moves_for 5 0, m.2.2 ≠ []) ∧
    (initialBoard.immediate_captures_for 5 0 = [] ∧
      initialBoard.legal_moves_for 5 0 = initialBoard.simple_moves_for 5 0 ∧
      ∀ m ∈ initialBoard.legal_moves_for 5 0, m.2.2 = []) :=
  ⟨⟨by decide, (legal_moves_capture_mandatory bSingleCapture 5 0).1 (by decide)⟩,
   ⟨by decide, (legal_moves_capture_mandatory initialBoard 5 0).2 (by decide)⟩⟩

/-- Claim C2: every capture chain returned by `legal_moves_for` is maximal:
replaying the whole chain (moving the piece to each landing cell, clearing
the source and every captured cell, as the clones in `_recursive_captures`
do) ends exactly on the returned destination, and from that simulated
position `_recursive_captures` finds no further capture. -/
theorem capture_chains_maximal : ∀ (b : Board) (r c : Int) (m : Move),
    m ∈ b.legal_moves_for r c → m.2.2 ≠ [] →
    (chainExec b r c m.2.2).2.1 = m.1 ∧ (chainExec b r c m.2.2).2.2 = m.2.1 ∧
    (chainExec b r c m.2.2).1.recursive_captures m.1 m.2.1 = [] := by
  intro b r c m hm hne
  obtain ⟨p, hp⟩ := legal_moves_src hm
  obtain ⟨color, king⟩ := p
  unfold Board.legal_moves_for at hm
  split at hm
  · rw [full_captures_eq_recF65 hp] at hm
    refine recC2 65 b r c color king m hp ?_ hm
    have := colorCount_le_64 b (opponent color)
    omega
  · obtain ⟨d, hd, _, _, hmeq⟩ := mem_simple_elim hp hm
    rw [hmeq] at hne
    simp at hne

theorem capture_chains_maximal_witness :
    ((3, 2, [(4, 1)]) : Move) ∈ bSingleCapture.legal_moves_for 5 0 ∧
    ((3, 2, ([(4, 1)] : List (Int × Int))).2.2 ≠ []) ∧
    (chainExec bSingleCapture 5 0 [(4, 1)]).2.1 = 3 ∧
    (chainExec bSingleCapture 5 0 [(4, 1)]).2.2 = 2 ∧
    (chainExec bSingleCapture 5 0 [(4, 1)]).1.recursive_captures 3 2 = [] :=
  ⟨by decide, by decide,
    (capture_chains_maximal bSingleCapture 5 0 (3, 2, [(4, 1)]) (by decide) (by decide)).1,
    (capture_chains_maximal bSingleCapture 5 0 (3, 2, [(4, 1)]) (by decide) (by decide)).2.1,
    (capture_chains_maximal bSingleCapture 5 0 (3, 2, [(4, 1)]) (by decide) (by decide)).2.2⟩

/-- Claim C3: during the capture-chain search the direction set of every
subsequent jump is computed from the piece's king flag as it was at the
start of the whole move: the search coincides with `chainSearchF`, which
fixes the color and king flag at every recursion depth and writes the
original, never-promoted pair onto each clone, so a non-king crossing the
back rank mid-chain gains no backward directions. -/
theorem chain_search_uses_frozen_king_flag : ∀ (fuel : Nat) (b : Board) (r c : Int)
    (color : Nat) (king : Bool), b.get r c = some (color, king) →
    recursiveCapturesF fuel b r c = chainSearchF color king fuel b r c := by
  intro fuel
  induction fuel with
  | zero =>
    intro b r c color king hg
    rfl
  | succ fuel ih =>
    intro b r c color king hg
    rw [recF_succ_some fuel hg]
    show _ = (captureScan b r c color king).flatMap fun mm =>
      if chainSearchF color king fuel
          (removeList ((b.set mm.1 mm.2.1 (some (color, king))).remove r c) mm.2.2)
          mm.1 mm.2.1 = [] then [mm]
      else (chainSearchF color king fuel
          (removeList ((b.set mm.1 mm.2.1 (some (color, king))).remove r c) mm.2.2)
          mm.1 mm.2.1).map fun e => (e.1, e.2.1, mm.2.2 ++ e.2.2)
    refine flatMap_congr_mem fun mm hmm => ?_
    obtain ⟨hcg, _⟩ := clone_facts hg hmm
    rw [ih _ mm.1 mm.2.1 color king hcg]

theorem chain_search_uses_frozen_king_flag_witness :
    bSingleCapture.get 5 0 = some (PLAYER, false) ∧
    recursiveCapturesF 64 bSingleCapture 5 0 = chainSearchF PLAYER false 64 bSingleCapture 5 0 :=
  ⟨by decide, chain_search_uses_frozen_king_flag 64 bSingleCapture 5 0 PLAYER false (by decide)⟩

/-- Claim C4: starting from the standard initial layout, after any sequence
of `apply_move` calls in which each applied move is a member of
`legal_moves_for` of its source cell, every occupied cell (r, c) satisfies
(r + c) odd. -/
theorem reachable_dark_squares_invariant : ∀ b : Board, Reachable b → darkOnly b := by
  intro b h
  induction h with
  | init => exact darkOnly_initial
  | step b r c m hb hm ih => exact darkOnly_apply ih hm

theorem reachable_dark_squares_invariant_witness :
    darkOnly (initialBoard.apply_move 5 0 4 1 []) :=
  reachable_dark_squares_invariant _
    (Reachable.step initialBoard 5 0 (4, 1, []) Reachable.init (by decide))

/-- Claim C5: mandatory capture is enforced only per cell: for a cell whose
piece has no capture available, `legal_moves_for` returns that piece's
simple moves even when `any_capture_available` is true for the same side
because a different piece of that side has a capture. -/
theorem per_cell_capture_enforcement : ∀ (b : Board) (r c : Int) (color : Nat) (p : Piece),
    b.get r c = some p → b.any_capture_available color = true →
    b.immediate_captures_for r c = [] →
    b.legal_moves_for r c = b.simple_moves_for r c := by
  intro b r c color p hp hany hnil
  obtain ⟨pc, pk⟩ := p
  exact legal_eq_simple ((full_eq_nil_iff hp).2 hnil)

theorem per_cell_capture_enforcement_witness :
    bTwoPieces.get 5 0 = some (PLAYER, false) ∧
    bTwoPieces.any_capture_available PLAYER = true ∧
    bTwoPieces.immediate_captures_for 5 0 = [] ∧
    bTwoPieces.legal_moves_for 5 0 = bTwoPieces.simple_moves_for 5 0 ∧
    bTwoPieces.legal_moves_for 5 0 = [(4, 1, [])] :=
  ⟨by decide, by decide, by decide,
    per_cell_capture_enforcement bTwoPieces 5 0 PLAYER (PLAYER, false)
      (by decide) (by decide) (by decide), by decide⟩

/-- Claim C6: the king flag is monotone under `apply_move`: when the moved
piece is a king, no cell of the resulting board holds a non-king piece that
was not already there (the flag is copied unchanged on relocation and only
ever set to true), and back-rank re-promotion of a king rewrites the same
(color, true) value, a no-op. -/
theorem king_flag_monotone : ∀ (b : Board) (r c to_r to_c : Int)
    (caps : List (Int × Int)) (color : Nat), b.get r c = some (color, true) →
    (∀ (x y : Int) (q : Piece), (b.apply_move r c to_r to_c caps).get x y = some q →
      q.2 = false → b.get x y = some q) ∧
    (in_bounds to_r to_c → ((color = PLAYER ∧ to_r = 0) ∨ (color = BOT ∧ to_r = 7)) →
      (b.apply_move r c to_r to_c caps).get to_r to_c = some (color, true)) := by
  intro b r c to_r to_c caps color h
  constructor
  · intro x y q hq hfalse
    rw [apply_move_eq h] at hq
    have chase : (removeList ((b.set to_r to_c (some (color, true))).remove r c) caps).get x y
        = some q → b.get x y = some q := by
      intro h0
      have h1 := removeList_get_some h0
      by_cases hxe : x = r ∧ y = c
      · rw [hxe.1, hxe.2, get_remove_self] at h1
        exact Option.noConfusion h1
      · rw [get_remove_other hxe] at h1
        by_cases hxt : x = to_r ∧ y = to_c
        · by_cases hbt : in_bounds to_r to_c
          · rw [hxt.1, hxt.2, get_set_self hbt] at h1
            cases Option.some.inj h1
            exact absurd hfalse (by simp)
          · rw [set_oob hbt] at h1
            exact h1
        · rw [get_set_other hxt] at h1
          exact h1
    split at hq
    · by_cases hxt : x = to_r ∧ y = to_c
      · by_cases hbt : in_bounds to_r to_c
        · rw [hxt.1, hxt.2, get_set_self hbt] at hq
          cases Option.some.inj hq
          exact absurd hfalse (by simp)
        · rw [set_oob hbt] at hq
          exact chase hq
      · rw [get_set_other hxt] at hq
        exact chase hq
    · exact chase hq
  · intro hbt hpromo
    rw [apply_move_eq h, if_pos hpromo, get_set_self hbt]

theorem king_flag_monotone_witness :
    bKingAt12.get 1 2 = some (PLAYER, true) ∧
    (bKingAt12.apply_move 1 2 0 1 []).get 0 1 = some (PLAYER, true) :=
  ⟨by decide,
    (king_flag_monotone bKingAt12 1 2 0 1 [] PLAYER (by decide)).2 (by decide) (by decide)⟩

/-- Claim C7: a board with zero Player pieces and at least one Bot piece
reports (true, "Bot wins"), and symmetrically zero Bot pieces with at least
one Player piece reports (true, "Player wins"); these piece-count checks
come before the no-legal-move checks, so the results hold even when the
winning side has no legal moves. -/
theorem game_over_elimination : ∀ b : Board,
    ((b.pieces PLAYER).length = 0 → 0 < (b.pieces BOT).length →
      b.game_over = (true, "Bot wins")) ∧
    ((b.pieces BOT).length = 0 → 0 < (b.pieces PLAYER).length →
      b.game_over = (true, "Player wins")) := by
  intro b
  constructor
  · intro h0 _
    unfold Board.game_over
    dsimp only
    rw [if_pos h0]
  · intro h0 hp
    unfold Board.game_over
    dsimp only
    rw [if_neg (by omega), if_pos h0]

theorem game_over_elimination_witness :
    (bBotOnly.pieces PLAYER).length = 0 ∧ 0 < (bBotOnly.pieces BOT).length ∧
    (∀ x ∈ bBotOnly.pieces BOT, bBotOnly.legal_moves_for x.1 x.2.1 = []) ∧
    bBotOnly.game_over = (true, "Bot wins") :=
  ⟨by decide, by decide, by decide,
    (game_over_elimination bBotOnly).1 (by decide) (by decide)⟩

/-- Claim C8 (counterexample): on a board where both sides have a piece and
BOTH are stuck, every Bot piece has an empty `legal_moves_for` result, yet
`game_over` reports the Bot — not the opposing Player — as winner, because
the Player-side no-move check runs first. -/
theorem game_over_stalemate_counterexample :
    0 < (bStuckBoth.pieces PLAYER).length ∧ 0 < (bStuckBoth.pieces BOT).length ∧
    (∀ x ∈ bStuckBoth.pieces BOT, bStuckBoth.legal_moves_for x.1 x.2.1 = []) ∧
    bStuckBoth.game_over = (true, "Bot wins (no moves for player)") ∧
    bStuckBoth.game_over ≠ (true, "Player wins (no moves for bot)") := by
  decide

/-- Claim C8 (amended): if both sides have pieces and every Player piece has
an empty `legal_moves_for` result, `game_over` reports the Bot as winner;
if every Bot piece has an empty result AND some Player piece still has a
legal move, `game_over` reports the Player as winner.  The Player-side
check runs first, so when both sides are stuck the Bot is reported. -/
theorem game_over_no_move_loss : ∀ b : Board,
    0 < (b.pieces PLAYER).length → 0 < (b.pieces BOT).length →
    ((∀ x ∈ b.pieces PLAYER, b.legal_moves_for x.1 x.2.1 = []) →
      b.game_over = (true, "Bot wins (no moves for player)")) ∧
    ((∀ x ∈ b.pieces BOT, b.legal_moves_for x.1 x.2.1 = []) →
      (∃ x ∈ b.pieces PLAYER, b.legal_moves_for x.1 x.2.1 ≠ []) →
      b.game_over = (true, "Player wins (no moves for bot)")) := by
  intro b hp hbt
  constructor
  · intro hall
    unfold Board.game_over
    dsimp only
    rw [if_neg (by omega), if_neg (by omega),
      if_pos (List.all_eq_true.2 fun x hx => List.isEmpty_iff.2 (hall x hx))]
  · intro hallB hex
    obtain ⟨x0, hx0, hne0⟩ := hex
    have hnp : ¬ ((b.pieces PLAYER).all
        (fun x => (b.legal_moves_for x.1 x.2.1).isEmpty) = true) := by
      intro hall
      exact hne0 (List.isEmpty_iff.1 (List.all_eq_true.1 hall x0 hx0))
    unfold Board.game_over
    dsimp only
    rw [if_neg (by omega), if_neg (by omega), if_neg hnp,
      if_pos (List.all_eq_true.2 fun x hx => List.isEmpty_iff.2 (hallB x hx))]

theorem game_over_no_move_loss_witness :
    (0 < (bStuckBoth.pieces PLAYER).length ∧ 0 < (bStuckBoth.pieces BOT).length ∧
      (∀ x ∈ bStuckBoth.pieces PLAYER, bStuckBoth.legal_moves_for x.1 x.2.1 = []) ∧
      bStuckBoth.game_over = (true, "Bot wins (no moves for player)")) ∧
    (0 < (bBotStuck.pieces PLAYER).length ∧ 0 < (bBotStuck.pieces BOT).length ∧
      (∀ x ∈ bBotStuck.pieces BOT, bBotStuck.legal_moves_for x.1 x.2.1 = []) ∧
      (∃ x ∈ bBotStuck.pieces PLAYER, bBotStuck.legal_moves_for x.1 x.2.1 ≠ []) ∧
      bBotStuck.game_over = (true, "Player wins (no moves for bot)")) :=
  ⟨⟨by decide, by decide, by decide,
    (game_over_no_move_loss bStuckBoth (by decide) (by decide)).1 (by decide)⟩,
   ⟨by decide, by decide, by decide, by decide,
    (game_over_no_move_loss bBotStuck (by decide) (by decide)).2 (by decide) (by decide)⟩⟩

/-- Claim C9: the capture-chain recursion is bounded by the number of
opponent pieces: running `recursiveCapturesF` with any fuel at least
`pieces(opponent).length` yields the same result as the engine's
`recursive_captures`, since each recursive step removes one more opponent
piece from the clone; in particular move generation always terminates. -/
theorem recursion_bounded_by_opponent_pieces : ∀ (b : Board) (r c : Int) (color : Nat)
    (king : Bool) (fuel : Nat), b.get r c = some (color, king) →
    (b.pieces (opponent color)).length ≤ fuel →
    recursiveCapturesF fuel b r c = b.recursive_captures r c := by
  intro b r c color king fuel hg hl
  rw [pieces_length] at hl
  rw [Board.recursive_captures]
  exact recF_stab_any fuel 64 hg hl (colorCount_le_64 b (opponent color))

theorem recursion_bounded_by_opponent_pieces_witness :
    bSingleCapture.get 5 0 = some (PLAYER, false) ∧
    (bSingleCapture.pieces (opponent PLAYER)).length ≤ 1 ∧
    recursiveCapturesF 1 bSingleCapture 5 0 = bSingleCapture.recursive_captures 5 0 :=
  ⟨by decide, by decide,
    recursion_bounded_by_opponent_pieces bSingleCapture 5 0 PLAYER false 1
      (by decide) (by decide)⟩

/-- Claim C10: for every out-of-bounds coordinate pair, `set` and `remove`
are silent no-ops: every cell of the board reads unchanged afterwards,
mirroring the permissive out-of-bounds read of `get`. -/
theorem oob_set_remove_noop : ∀ (b : Board) (r c : Int) (v : Option Piece),
    ¬ in_bounds r c →
    (∀ x y : Int, (b.set r c v).get x y = b.get x y) ∧
    (∀ x y : Int, (b.remove r c).get x y = b.get x y) := by
  intro b r c v h
  refine ⟨fun x y => ?_, fun x y => ?_⟩
  · rw [set_oob h]
  · rw [Board.remove, set_oob h]

theorem oob_set_remove_noop_witness :
    ¬ in_bounds 8 0 ∧
    (initialBoard.set 8 0 (some (PLAYER, false))).get 5 0 = initialBoard.get 5 0 ∧
    (initialBoard.remove 8 0).get 5 0 = initialBoard.get 5 0 :=
  ⟨by decide,
    (oob_set_remove_noop initialBoard 8 0 (some (PLAYER, false)) (by decide)).1 5 0,
    (oob_set_remove_noop initialBoard 8 0 (some (PLAYER, false)) (by decide)).2 5 0⟩
